import Mathlib

/-!
Shallow embedding of the pixelflut client (hoelli.py): the command compiler
(get_cmds), the Sender class (connect, disconnect, set_cmd_list, send,
send_idle, get_px_cnt) and the Python-level semantics they rely on
(dict update/lookup, the success condition of int(s, 16), CPython selectors
behaviour).  Byte strings are modelled as lists of characters (all data
involved is ASCII, so byte length equals character count), Python floats as
exact rationals, and Python exceptions as an Except error channel that also
carries the object state at the moment of the raise (attribute mutations
performed before the raise persist in Python).
-/

namespace Hoelli

/-- Byte strings (ASCII). -/
abbrev Bytes := List Char

/-- A file descriptor / socket identity. -/
abbrev Sock := Nat

/-- A selectors.SelectorKey as far as the program observes it: the registered
socket and its blocking flag after connect ran sock.setblocking(0). -/
structure SelKey where
  fileobj : Sock
  nonblocking : Bool
deriving DecidableEq, Repr

/-- Keys of the Python dict Sender.cmd_str.  set_cmd_list stores entries under
SelectorKey objects (sel.get_map().values() yields SelectorKey namedtuples),
while Sender.send looks entries up under the socket object (k.fileobj),
so the key type distinguishes the two. -/
inductive DKey where
  | sock (s : Sock)
  | skey (k : SelKey)
deriving DecidableEq, Repr

/-- Python exceptions raised by the modelled code. -/
inductive PyErr where
  /-- ConnectionResetError or BrokenPipeError out of socket.send. -/
  | connectionError
  /-- ZeroDivisionError from dividing by len(self.cmd_str). -/
  | zeroDivision
  /-- ValueError out of int(rgb, 16). -/
  | valueErrorHex
  /-- ValueError('RGB(A) Value has wrong length'). -/
  | valueErrorLength
  /-- IndexError from img[0] or img[y][x]. -/
  | indexError
  /-- ConnectionRefusedError('Could not connect with any socket.'). -/
  | connectionRefused
  /-- ValueError('Invalid file object: ...') out of selector.unregister. -/
  | invalidFileObject
deriving DecidableEq, Repr

/-- Python dict lookup d.get(k) (insertion-ordered association list). -/
def dictGet {κ β : Type} [DecidableEq κ] : List (κ × β) → κ → Option β
  | [], _ => none
  | (k0, v0) :: rest, k => if k0 = k then some v0 else dictGet rest k

/-- Python dict assignment d[k] = v: replace in place if the key is present,
append otherwise. -/
def dictSet {κ β : Type} [DecidableEq κ] : List (κ × β) → κ → β → List (κ × β)
  | [], k, v => [(k, v)]
  | (k0, v0) :: rest, k, v =>
      if k0 = k then (k, v) :: rest else (k0, v0) :: dictSet rest k v

/-- Whitespace stripped by CPython's integer parser (ASCII fragment). -/
def isPySpace (c : Char) : Bool :=
  c = ' ' || c = '\t' || c = '\n' || c = '\x0d' || c = '\x0b' || c = '\x0c'

/-- Hexadecimal digit. -/
def isHexDigit (c : Char) : Bool :=
  (('0' ≤ c && c ≤ '9') || ('a' ≤ c && c ≤ 'f') || ('A' ≤ c && c ≤ 'F'))

/-- After one hex digit has been read: ( _? digit )* with single underscores
only between digits. -/
def hexTail : List Char → Bool
  | [] => true
  | c :: rest =>
      if c = '_' then
        match rest with
        | [] => false
        | c2 :: rest2 => isHexDigit c2 && hexTail rest2
      else isHexDigit c && hexTail rest

/-- digit ( _? digit )*: at least one digit, underscores between digits. -/
def hexBody : List Char → Bool
  | [] => false
  | c :: rest => isHexDigit c && hexTail rest

/-- After the 0x / 0X prefix one leading underscore is allowed. -/
def afterPrefix (l : List Char) : Bool :=
  match l with
  | c :: rest => if c = '_' then hexBody rest else hexBody l
  | [] => false

/-- Unsigned part of the literal: optional 0x / 0X prefix, then digits. -/
def noSign (l : List Char) : Bool :=
  match l with
  | c0 :: c1 :: rest =>
      if c0 = '0' ∧ (c1 = 'x' ∨ c1 = 'X') then afterPrefix rest else hexBody l
  | _ => hexBody l

/-- Optional single sign. -/
def signedCore (l : List Char) : Bool :=
  match l with
  | c :: rest => if c = '+' ∨ c = '-' then noSign rest else noSign l
  | [] => false

/-- Whether int(s, 16) succeeds in Python (ASCII inputs): surrounding
whitespace, an optional sign, an optional 0x / 0X prefix and single
underscores between hex digits are all accepted. -/
def pyInt16Ok (s : String) : Bool :=
  signedCore (((s.toList.dropWhile isPySpace).reverse.dropWhile isPySpace).reverse)

/-- The transparent colour sentinel of hoelli.py. -/
def TRANSPARENT : String := "000000"

/-- The encoded wire line 'PX {x} {y} {rgb}\n' for one pixel. -/
def mkCmd (x y : Int) (rgb : String) : Bytes :=
  ("PX " ++ toString x ++ " " ++ toString y ++ " " ++ rgb ++ "\n").toList

/-- One iteration of the inner loop of get_cmds for the cell value rgb at
(x, y): skip the transparent sentinel, then int(rgb, 16), then the length
check, then emit the command. -/
def cellStep (dx dy : Int) (x y : Nat) (rgb : String) : Except PyErr (Option Bytes) :=
  if rgb = TRANSPARENT then .ok none
  else if pyInt16Ok rgb = false then .error .valueErrorHex
  else if ¬(rgb.length = 6 ∨ rgb.length = 8) then .error .valueErrorLength
  else .ok (some (mkCmd ((x : Int) + dx) ((y : Int) + dy) rgb))

/-- for x in range(w): process img[y][x]; the countdown n is the number of
columns left, x the current column; running past the end of the row is an
IndexError. -/
def rowLoop (dx dy : Int) (y : Nat) : Nat → List String → Nat → Except PyErr (List Bytes)
  | _, _, 0 => .ok []
  | _, [], _ + 1 => .error .indexError
  | x, rgb :: rest, n + 1 =>
      match cellStep dx dy x y rgb with
      | .error e => .error e
      | .ok none => rowLoop dx dy y (x + 1) rest n
      | .ok (some c) =>
          match rowLoop dx dy y (x + 1) rest n with
          | .error e => .error e
          | .ok cs => .ok (c :: cs)

/-- for y in range(h): process row y with w columns. -/
def imgLoop (dx dy : Int) (w : Nat) : Nat → List (List String) → Except PyErr (List Bytes)
  | _, [] => .ok []
  | y, row :: rest =>
      match rowLoop dx dy y 0 row w with
      | .error e => .error e
      | .ok cs =>
          match imgLoop dx dy w (y + 1) rest with
          | .error e => .error e
          | .ok cs2 => .ok (cs ++ cs2)

/-- get_cmds(dx, dy, img) of hoelli.py: w is taken from the first row
(IndexError on an empty image), each cell is validated and encoded in
row-major order, and the first failure aborts the whole build. -/
def get_cmds (dx dy : Int) (img : List (List String)) : Except PyErr (List Bytes) :=
  match img with
  | [] => .error .indexError
  | r0 :: _ => imgLoop dx dy r0.length 0 img

/-- The mutable state of a Sender object.  selMap is the selector's
registration map (insertion order, values are SelectorKey objects), buf the
per-socket residual-write dict, px_cnt the float pixel accumulator (exact
rational here), cmd_str the blob dict filled by set_cmd_list and px_per_str
the pixel count recorded with it. -/
structure Sender where
  max_socks : Nat
  selMap : List SelKey
  buf : List (Sock × Bytes)
  px_cnt : Rat
  cmd_str : List (DKey × Bytes)
  px_per_str : Nat
deriving DecidableEq, Repr

/-- Sender.__init__(max_socks): empty selector, empty buffers, zero counter.
The attribute px_per_str is first assigned in set_cmd_list; it is carried
here as 0 until then. -/
def initSender (max_socks : Nat) : Sender :=
  { max_socks := max_socks, selMap := [], buf := [], px_cnt := 0,
    cmd_str := [], px_per_str := 0 }

/-- Sender.get_px_cnt: int() on a float truncates toward zero. -/
def truncQ (q : Rat) : Int :=
  if 0 ≤ q then ⌊q⌋ else -⌊-q⌋

/-- Sender.get_px_cnt(): return int(self.px_cnt) and reset the accumulator
to 0.0. -/
def get_px_cnt (s : Sender) : Int × Sender :=
  (truncQ s.px_cnt, { s with px_cnt := 0 })

/-- The loop of Sender.set_cmd_list: for every value of sel.get_map()
(a SelectorKey), random.shuffle(cmds) reshuffles the one shared list in
place and the joined bytes are stored under that SelectorKey.  The i-th
shuffle outcome is supplied by the oracle shuf i; the loop returns the final
state of the shared list together with the updated dict. -/
def setCmdLoop (shuf : Nat → List Bytes → List Bytes) :
    List SelKey → Nat → List Bytes → List (DKey × Bytes) →
    List Bytes × List (DKey × Bytes)
  | [], _, cur, d => (cur, d)
  | k :: rest, i, cur, d =>
      setCmdLoop shuf rest (i + 1) (shuf i cur)
        (dictSet d (DKey.skey k) (shuf i cur).flatten)

/-- Sender.set_cmd_list(cmds): per registered connection store a freshly
reshuffled join of cmds, then record px_per_str = len(cmds). -/
def set_cmd_list (shuf : Nat → List Bytes → List Bytes) (s : Sender)
    (cmds : List Bytes) : Sender :=
  let res := setCmdLoop shuf s.selMap 0 cmds s.cmd_str
  { s with cmd_str := res.2, px_per_str := res.1.length }

/-- The connection loop of Sender.connect: up to n more attempts starting at
attempt index i; outcome i = none means ConnectionRefusedError, which
breaks the loop; a successful socket is registered (and then made
non-blocking). -/
def connectLoop (outcome : Nat → Option Sock) :
    Nat → Nat → List SelKey → List SelKey
  | _, 0, acc => acc
  | i, n + 1, acc =>
      match outcome i with
      | none => acc
      | some sk => connectLoop outcome (i + 1) n (acc ++ [⟨sk, true⟩])

/-- Sender.connect(hostname, port): run the attempt loop, then raise
ConnectionRefusedError('Could not connect with any socket.') when the
selector map is still empty. -/
def connect (outcome : Nat → Option Sock) (s : Sender) :
    Except (PyErr × Sender) Sender :=
  let m := connectLoop outcome 0 s.max_socks s.selMap
  if m.length < 1 then .error (.connectionRefused, { s with selMap := m })
  else .ok { s with selMap := m }

/-- Sender.disconnect(): iterates over sel.get_map().values(), which yields
SelectorKey namedtuples, and calls sel.unregister on each one.  In CPython's
selectors module unregister on a SelectorKey raises
ValueError('Invalid file object: ...') because a SelectorKey is neither an
int nor has a fileno method and is not a registered fileobj; so for any
non-empty map the very first iteration raises before any socket is closed
or unregistered. -/
def disconnect (s : Sender) : Except (PyErr × Sender) Sender :=
  match s.selMap with
  | [] => .ok s
  | _ :: _ => .error (.invalidFileObject, s)

/-- The outcome of the kernel call sock.send(data): either it accepts some
number of bytes (capped at len(data)) or it raises a connection error. -/
inductive SendRes where
  | accepted (k : Nat)
  | connErr
deriving DecidableEq, Repr

/-- Sender.send(sock): data = buf.get(sock, b''); sent = sock.send(data);
buf[sock] = data[sent:]; if len(data) == 0 the buffer is refilled from
cmd_str.get(sock, b'') (a lookup under the socket, while set_cmd_list stored
under SelectorKey objects); finally
px_cnt += float(sent) / len(cmd_str) * px_per_str, where len(cmd_str) is the
number of dict entries.  A raise carries the state at the raise point:
socket errors happen before any mutation, ZeroDivisionError after the
buffer updates. -/
def send (res : SendRes) (s : Sender) (sock : Sock) :
    Except (PyErr × Sender) Sender :=
  let data := (dictGet s.buf sock).getD []
  match res with
  | .connErr => .error (.connectionError, s)
  | .accepted k =>
      let sent := min k data.length
      let buf1 := dictSet s.buf sock (data.drop sent)
      let buf2 :=
        if data.length = 0 then
          dictSet buf1 sock ((dictGet s.cmd_str (DKey.sock sock)).getD [])
        else buf1
      if s.cmd_str.length = 0 then .error (.zeroDivision, { s with buf := buf2 })
      else
        .ok { s with
                buf := buf2,
                px_cnt := s.px_cnt +
                  (sent : Rat) / (s.cmd_str.length : Rat) * (s.px_per_str : Rat) }

/-- The loop of Sender.send_idle: for every key reported ready, call
send(key.fileobj); results i supplies the kernel outcome of the i-th call;
an uncaught exception aborts the loop and propagates. -/
def sendIdleLoop (results : Nat → SendRes) :
    Nat → List SelKey → Sender → Except (PyErr × Sender) Sender
  | _, [], s => .ok s
  | i, k :: rest, s =>
      match send (results i) s k.fileobj with
      | .error e => .error e
      | .ok s2 => sendIdleLoop results (i + 1) rest s2

/-- Sender.send_idle(): fire every ready socket in order. -/
def send_idle (results : Nat → SendRes) (ready : List SelKey) (s : Sender) :
    Except (PyErr × Sender) Sender :=
  sendIdleLoop results 0 ready s

/-- Iterated Sender.send on one socket with given kernel acceptance counts,
also returning the transcript of bytes that actually went to the wire
(each call transmits data[:sent]). -/
def sendTrace : List Nat → Sender → Sock →
    Except (PyErr × Sender) (Sender × Bytes)
  | [], s, _ => .ok (s, [])
  | k :: ks, s, sock =>
      let data := (dictGet s.buf sock).getD []
      match send (.accepted k) s sock with
      | .error e => .error e
      | .ok s2 =>
          match sendTrace ks s2 sock with
          | .error e => .error e
          | .ok (s3, out) => .ok (s3, data.take (min k data.length) ++ out)

/-- m concatenated copies of the blob. -/
def cycles (m : Nat) (blob : Bytes) : Bytes :=
  (List.replicate m blob).flatten

/-- The residual buffer of one socket. -/
def residual (s : Sender) (sock : Sock) : Bytes :=
  (dictGet s.buf sock).getD []

/-- An interleaving of Sender.send calls (with accepted byte counts) and
Sender.get_px_cnt calls, as performed by the sending loop and the reporting
loop. -/
inductive Ev where
  | send (sock : Sock) (k : Nat)
  | read
deriving DecidableEq, Repr

/-- Run a sequence of send and read-and-reset events; returns the sum of the
values returned by the get_px_cnt calls together with the final state. -/
def runEvents : List Ev → Sender → Except (PyErr × Sender) (Int × Sender)
  | [], s => .ok (0, s)
  | .read :: evs, s =>
      match runEvents evs (get_px_cnt s).2 with
      | .error e => .error e
      | .ok (tot, s2) => .ok ((get_px_cnt s).1 + tot, s2)
  | .send sock k :: evs, s =>
      match send (.accepted k) s sock with
      | .error e => .error e
      | .ok s2 => runEvents evs s2

/-- Run only the send events of a sequence: the accumulator is never reset,
so the final px_cnt is the untruncated accumulated pixel estimate. -/
def runSendsOnly : List Ev → Sender → Except (PyErr × Sender) Sender
  | [], s => .ok s
  | .read :: evs, s => runSendsOnly evs s
  | .send sock k :: evs, s =>
      match send (.accepted k) s sock with
      | .error e => .error e
      | .ok s2 => runSendsOnly evs s2

/-- The commands emitted for one row whose cells all pass validation,
starting at column x: the reference value of rowLoop. -/
def rowCmdsFrom (dx dy : Int) (y : Nat) : Nat → List String → List Bytes
  | _, [] => []
  | x, rgb :: rest =>
      if rgb = TRANSPARENT then rowCmdsFrom dx dy y (x + 1) rest
      else mkCmd ((x : Int) + dx) ((y : Int) + dy) rgb :: rowCmdsFrom dx dy y (x + 1) rest

/-- The commands emitted for a whole image whose cells all pass validation:
the reference value of imgLoop. -/
def imgCmds (dx dy : Int) : Nat → List (List String) → List Bytes
  | _, [] => []
  | y, row :: rest => rowCmdsFrom dx dy y 0 row ++ imgCmds dx dy (y + 1) rest

/-- The sockets opened by the connect loop when it starts at attempt i with
n attempts left: successes until the first refusal. -/
def openedFrom (outcome : Nat → Option Sock) : Nat → Nat → List SelKey
  | _, 0 => []
  | i, n + 1 =>
      match outcome i with
      | none => []
      | some sk => ⟨sk, true⟩ :: openedFrom outcome (i + 1) n

/-- A cell value is a well-formed colour: 6 or 8 characters, all hexadecimal
digits. -/
def validColor (c : String) : Prop :=
  (c.length = 6 ∨ c.length = 8) ∧ c.toList.all isHexDigit = true

instance (c : String) : Decidable (validColor c) := by
  unfold validColor; infer_instance

/-- Total number of transparent cells of an image. -/
def transparentCount (img : List (List String)) : Nat :=
  (img.map (fun row => row.count TRANSPARENT)).sum

/-- Decidable equality of Except values. -/
instance {ε α : Type} [DecidableEq ε] [DecidableEq α] :
    DecidableEq (Except ε α) := fun x y =>
  match x, y with
  | .ok a, .ok b =>
      if h : a = b then isTrue (by rw [h])
      else isFalse (fun hc => h (by cases hc; rfl))
  | .error a, .error b =>
      if h : a = b then isTrue (by rw [h])
      else isFalse (fun hc => h (by cases hc; rfl))
  | .ok _, .error _ => isFalse (fun hc => Except.noConfusion hc)
  | .error _, .ok _ => isFalse (fun hc => Except.noConfusion hc)

/-- The total returned by the get_px_cnt calls of a run, when it did not
raise. -/
def readTotal (r : Except (PyErr × Sender) (Int × Sender)) : Option Int :=
  match r with
  | .ok (t, _) => some t
  | .error _ => none

/-- Rounding to the nearest integer, as used by the spec formula
round(B / L * P). -/
def roundQ (q : Rat) : Int := ⌊q + 1 / 2⌋

/-- The 8-character all-black RGBA colour value. -/
def BLACK_RGBA : String := "00000000"

/-- Number of cells holding the 8-character all-black RGBA value. -/
def blackRGBACount (img : List (List String)) : Nat :=
  (img.map (fun row => row.count BLACK_RGBA)).sum

/-- A SelectorKey for socket 7. -/
def keyA : SelKey := ⟨7, true⟩

/-- A SelectorKey for socket 8. -/
def keyB : SelKey := ⟨8, true⟩

/-- A one-command blob: the wire line PX 1 2 aabbcc (14 bytes, 1 pixel). -/
def blobOne : Bytes := mkCmd 1 2 "aabbcc"

/-- A Sender with one live connection (socket 7) whose blob dict carries
blobOne for that socket, with px_per_str = 1: the state of a single
connection ready to stream a one-pixel blob. -/
def senderOne : Sender :=
  { max_socks := 1, selMap := [keyA], buf := [], px_cnt := 0,
    cmd_str := [(DKey.sock 7, blobOne)], px_per_str := 1 }

/-- A Sender with two live connections whose blob dict holds the entries
set_cmd_list would create (keyed by SelectorKey). -/
def senderTwo : Sender :=
  { max_socks := 2, selMap := [keyA, keyB], buf := [], px_cnt := 0,
    cmd_str := [(DKey.skey keyA, blobOne), (DKey.skey keyB, blobOne)],
    px_per_str := 1 }

/-- Kernel outcomes for a send_idle round: the first ready socket accepts 5
bytes, every later one raises a connection error. -/
def resultsW : Nat → SendRes :=
  fun i => if i = 0 then SendRes.accepted 5 else SendRes.connErr

/-- senderTwo after one send call on socket 7 that accepted 5 bytes: the
buffer was empty, so nothing was transmitted and the refill found no entry
under the socket key (set_cmd_list stored them under SelectorKey objects). -/
def senderTwoAfter : Sender := { senderTwo with buf := [(7, [])] }

/-- senderOne with a two-byte ring blob installed for socket 7. -/
def senderRing : Sender :=
  { senderOne with cmd_str := [(DKey.sock 7, ['a', 'b'])] }

/-- senderOne with a pending three-byte residual buffer on socket 7. -/
def senderPartial : Sender :=
  { senderOne with buf := [(7, ['a', 'b', 'c'])] }

/-- A cell passes the validation of get_cmds (or is skipped as transparent):
this is the exact per-cell success condition of the source loop. -/
def goodCell (c : String) : Prop :=
  c = TRANSPARENT ∨ (pyInt16Ok c = true ∧ (c.length = 6 ∨ c.length = 8))

instance (c : String) : Decidable (goodCell c) := by
  unfold goodCell; infer_instance

theorem dictGet_dictSet_self {κ β : Type} [DecidableEq κ]
    (d : List (κ × β)) (k : κ) (v : β) :
    dictGet (dictSet d k v) k = some v := by
  induction d with
  | nil => simp [dictGet, dictSet]
  | cons p rest ih =>
      by_cases h : p.1 = k
      · simp [dictSet, h, dictGet]
      · simp [dictSet, h, dictGet, ih]

theorem dictGet_dictSet_ne {κ β : Type} [DecidableEq κ]
    (d : List (κ × β)) (k k2 : κ) (v : β) (hne : k ≠ k2) :
    dictGet (dictSet d k v) k2 = dictGet d k2 := by
  induction d with
  | nil => simp [dictGet, dictSet, hne]
  | cons p rest ih =>
      by_cases h : p.1 = k
      · simp [dictSet, h, dictGet, hne]
      · simp [dictSet, h, dictGet, ih]

theorem send_fields (r : SendRes) (s : Sender) (sock : Sock) (t : Sender)
    (h : send r s sock = .ok t ∨ ∃ e, send r s sock = .error (e, t)) :
    t.selMap = s.selMap ∧ t.cmd_str = s.cmd_str ∧ t.max_socks = s.max_socks
    ∧ t.px_per_str = s.px_per_str := by
  cases r with
  | connErr =>
      rcases h with h | ⟨e, h⟩
      · simp [send] at h
      · simp [send] at h
        rcases h with ⟨h1, h2⟩
        rw [← h2]
        exact ⟨rfl, rfl, rfl, rfl⟩
  | accepted k =>
      rcases h with h | ⟨e, h⟩
      · simp only [send] at h
        split at h
        · exact Except.noConfusion h
        · cases h
          exact ⟨rfl, rfl, rfl, rfl⟩
      · simp only [send] at h
        split at h
        · simp only [Except.error.injEq, Prod.mk.injEq] at h
          rw [← h.2]
          exact ⟨rfl, rfl, rfl, rfl⟩
        · exact Except.noConfusion h

theorem sendIdleLoop_error_pool (results : Nat → SendRes) (ready : List SelKey) :
    ∀ (i : Nat) (s : Sender) (e : PyErr) (t : Sender),
      sendIdleLoop results i ready s = .error (e, t) →
      t.selMap = s.selMap ∧ t.cmd_str = s.cmd_str := by
  induction ready with
  | nil => intro i s e t h; simp [sendIdleLoop] at h
  | cons k rest ih =>
      intro i s e t h
      simp only [sendIdleLoop] at h
      cases hs : send (results i) s k.fileobj with
      | error p =>
          rw [hs] at h
          simp only [Except.error.injEq] at h
          rw [h] at hs
          have h4 := send_fields (results i) s k.fileobj t (Or.inr ⟨e, hs⟩)
          exact ⟨h4.1, h4.2.1⟩
      | ok s2 =>
          rw [hs] at h
          have h2 := ih (i + 1) s2 e t h
          have h3 := send_fields (results i) s k.fileobj s2 (Or.inl hs)
          exact ⟨h2.1.trans h3.1, h2.2.trans h3.2.1⟩

/-- C2: the claim that a connection error during send removes only the
failing Connection and lets sending continue is false on the code: send and
send_idle catch nothing, so the very first connection error aborts
send_idle with the pool untouched.  Here a pool of two connections hits a
connection error on the first ready socket: send_idle raises, the failing
connection is still registered (selMap unchanged) and the second connection
is never serviced. -/
theorem c2_counterexample :
    send_idle (fun _ => SendRes.connErr) [keyA, keyB] senderTwo
      = .error (.connectionError, senderTwo)
    ∧ senderTwo.selMap = [keyA, keyB] := ⟨rfl, rfl⟩

/-- C2 amended: when any send raises during a send_idle round, the
exception propagates uncaught and the Sender pool is not pruned: the state
carried by the exception has the same selector map and the same blob dict
as before the round.  There is no local drop-the-socket recovery and no
empty-pool special case; recovery happens only via the process-level
catch-all restart. -/
theorem c2_amended (results : Nat → SendRes) (ready : List SelKey)
    (s : Sender) (e : PyErr) (t : Sender)
    (h : send_idle results ready s = .error (e, t)) :
    t.selMap = s.selMap ∧ t.cmd_str = s.cmd_str :=
  sendIdleLoop_error_pool results ready 0 s e t h

theorem c2_amended_witness :
    senderTwoAfter.selMap = senderTwo.selMap
    ∧ senderTwoAfter.cmd_str = senderTwo.cmd_str :=
  c2_amended resultsW [keyA, keyB] senderTwo .connectionError senderTwoAfter
    (by with_unfolding_all rfl)

/-- C3: the claim that disconnect closes and unregisters every connection
is false on the code, which is a bug in the source: disconnect iterates
over sel.get_map().values(), and in CPython's selectors module those values
are SelectorKey namedtuples, not sockets, so the first
sel.unregister(SelectorKey) call raises
ValueError('Invalid file object: ...') before any socket is closed or
unregistered.  On a pool with one live connection the call raises and the
connection is still registered. -/
theorem c3_disconnect_code_bug :
    disconnect senderOne = .error (.invalidFileObject, senderOne)
    ∧ senderOne.selMap = [keyA] := ⟨rfl, rfl⟩

/-- C1: the claim that get_px_cnt returns round(B / L * P) after B
transmitted bytes is false on the code, which is a bug in the source: send
accumulates float(sent) / len(self.cmd_str) * self.px_per_str, and
len(self.cmd_str) is the number of dict entries (one per connection), not
the byte length of the blob; int() also truncates instead of rounding.
With one connection, the 14-byte one-pixel blob blobOne (L = 14, P = 1)
installed for socket 7, and exactly B = 14 bytes transmitted (one refill
call then one full write), get_px_cnt returns int(14 / 1 * 1) = 14, while
round(B / L * P) = round(14 / 14 * 1) = 1; a second read before further
sending adds 0. -/
theorem c1_px_cnt_code_bug :
    readTotal (runEvents [Ev.send 7 20, Ev.send 7 20, Ev.read] senderOne) = some 14
    ∧ blobOne.length = 14
    ∧ senderOne.px_per_str = 1
    ∧ senderOne.cmd_str.length = 1
    ∧ roundQ ((14 : Rat) / (14 : Rat) * (1 : Rat)) = 1
    ∧ readTotal (runEvents [Ev.send 7 20, Ev.send 7 20, Ev.read, Ev.read] senderOne)
        = some 14 := by
  refine ⟨by with_unfolding_all rfl, by decide, rfl, rfl, ?_, by with_unfolding_all rfl⟩
  norm_num [roundQ]

theorem hex_ne_special (c : Char) (h : isHexDigit c = true) :
    c ≠ '_' ∧ c ≠ '+' ∧ c ≠ '-' ∧ c ≠ 'x' ∧ c ≠ 'X' ∧ isPySpace c = false := by
  refine ⟨?_, ?_, ?_, ?_, ?_, ?_⟩
  · intro hc; rw [hc] at h; exact absurd h (by decide)
  · intro hc; rw [hc] at h; exact absurd h (by decide)
  · intro hc; rw [hc] at h; exact absurd h (by decide)
  · intro hc; rw [hc] at h; exact absurd h (by decide)
  · intro hc; rw [hc] at h; exact absurd h (by decide)
  · cases hsp : isPySpace c with
    | false => rfl
    | true =>
        exfalso
        simp only [isPySpace, Bool.or_eq_true, decide_eq_true_eq] at hsp
        rcases hsp with ((((h1 | h1) | h1) | h1) | h1) | h1 <;>
          rw [h1] at h <;> exact absurd h (by decide)

theorem hexTail_of_all (l : List Char) (hl : ∀ c ∈ l, isHexDigit c = true) :
    hexTail l = true := by
  induction l with
  | nil => rfl
  | cons c rest ih =>
      have hc := hl c (by simp)
      have hne := (hex_ne_special c hc).1
      unfold hexTail
      rw [if_neg hne, hc, ih (fun c2 h2 => hl c2 (by simp [h2]))]
      rfl

theorem hexBody_of_all (l : List Char) (hne : l ≠ [])
    (hl : ∀ c ∈ l, isHexDigit c = true) : hexBody l = true := by
  cases l with
  | nil => exact absurd rfl hne
  | cons c rest =>
      have hc := hl c (by simp)
      show (isHexDigit c && hexTail rest) = true
      rw [hc, hexTail_of_all rest (fun c2 h2 => hl c2 (by simp [h2]))]
      rfl

theorem stripWS_of_all (l : List Char) (hne : l ≠ [])
    (hl : ∀ c ∈ l, isHexDigit c = true) :
    ((l.dropWhile isPySpace).reverse.dropWhile isPySpace).reverse = l := by
  have h1 : l.dropWhile isPySpace = l := by
    cases l with
    | nil => exact absurd rfl hne
    | cons c rest =>
        have hc := (hex_ne_special c (hl c (by simp))).2.2.2.2.2
        simp [List.dropWhile_cons, hc]
  rw [h1]
  cases hr : l.reverse with
  | nil => exact absurd (by simpa using congrArg List.reverse hr) hne
  | cons c rest =>
      have hcmem : c ∈ l := by
        have : c ∈ l.reverse := by rw [hr]; simp
        simpa using this
      have hc := (hex_ne_special c (hl c hcmem)).2.2.2.2.2
      rw [List.dropWhile_cons, hc]
      simp only [Bool.false_eq_true, if_false]
      rw [← hr, List.reverse_reverse]

theorem pyInt16Ok_of_validColor (c : String) (h : validColor c) :
    pyInt16Ok c = true := by
  obtain ⟨hlen, hall⟩ := h
  have hl : ∀ x ∈ c.toList, isHexDigit x = true := by
    simpa [List.all_eq_true] using hall
  have hlenl : c.toList.length = c.length := rfl
  have hne : c.toList ≠ [] := by
    intro hc
    rw [hc] at hlenl
    simp only [List.length_nil] at hlenl
    rcases hlen with h6 | h8 <;> omega
  unfold pyInt16Ok
  rw [stripWS_of_all c.toList hne hl]
  cases hcl : c.toList with
  | nil => exact absurd hcl hne
  | cons c0 rest =>
      have hc0 := hl c0 (by rw [hcl]; simp)
      have hs0 := hex_ne_special c0 hc0
      have hsign : ¬(c0 = '+' ∨ c0 = '-') := by
        rintro (hc | hc)
        · exact hs0.2.1 hc
        · exact hs0.2.2.1 hc
      cases rest with
      | nil =>
          simp only [signedCore, if_neg hsign, noSign]
          exact hexBody_of_all [c0] (by simp) (by
            intro x hx; rw [← hcl] at hx; exact hl x hx)
      | cons c1 rest2 =>
          have hc1 := hl c1 (by rw [hcl]; simp)
          have hs1 := hex_ne_special c1 hc1
          have hpre : ¬(c0 = '0' ∧ (c1 = 'x' ∨ c1 = 'X')) := by
            rintro ⟨-, hc | hc⟩
            · exact hs1.2.2.2.1 hc
            · exact hs1.2.2.2.2.1 hc
          simp only [signedCore, if_neg hsign, noSign, if_neg hpre]
          exact hexBody_of_all (c0 :: c1 :: rest2) (by simp) (by
            intro x hx; rw [← hcl] at hx; exact hl x hx)

theorem cellStep_ok_of_good (dx dy : Int) (x y : Nat) (c : String)
    (h : goodCell c) :
    cellStep dx dy x y c =
      .ok (if c = TRANSPARENT then none
           else some (mkCmd ((x : Int) + dx) ((y : Int) + dy) c)) := by
  rcases h with h | ⟨hok, hlen⟩
  · simp [cellStep, h]
  · by_cases ht : c = TRANSPARENT
    · simp [cellStep, ht]
    · simp [cellStep, ht, hok, hlen]

theorem cellStep_error_of_bad (dx dy : Int) (x y : Nat) (c : String)
    (h : ¬goodCell c) : ∃ e, cellStep dx dy x y c = .error e := by
  unfold goodCell at h
  push_neg at h
  obtain ⟨ht, h2⟩ := h
  by_cases hok : pyInt16Ok c = true
  · have hlen := h2 hok
    refine ⟨.valueErrorLength, ?_⟩
    simp [cellStep, ht, hok, hlen]
  · refine ⟨.valueErrorHex, ?_⟩
    have hok2 : pyInt16Ok c = false := by
      cases hv : pyInt16Ok c
      · rfl
      · exact absurd hv hok
    simp [cellStep, ht, hok2]

theorem rowLoop_ok_of_good (dx dy : Int) (y : Nat) :
    ∀ (row : List String) (x : Nat), (∀ c ∈ row, goodCell c) →
      rowLoop dx dy y x row row.length = .ok (rowCmdsFrom dx dy y x row) := by
  intro row
  induction row with
  | nil => intro x h; rfl
  | cons c rest ih =>
      intro x h
      have hc := h c (by simp)
      have hrest : ∀ c2 ∈ rest, goodCell c2 := fun c2 h2 => h c2 (by simp [h2])
      simp only [List.length_cons, rowLoop, cellStep_ok_of_good dx dy x y c hc]
      by_cases ht : c = TRANSPARENT
      · simp [ht, ih (x + 1) hrest, rowCmdsFrom]
      · simp [ht, ih (x + 1) hrest, rowCmdsFrom]

theorem rowLoop_error_of_bad (dx dy : Int) (y : Nat) :
    ∀ (row : List String) (x : Nat) (c : String), c ∈ row → ¬goodCell c →
      ∃ e, rowLoop dx dy y x row row.length = .error e := by
  intro row
  induction row with
  | nil => intro x c hc; exact absurd hc (by simp)
  | cons c0 rest ih =>
      intro x c hc hbad
      rcases List.mem_cons.mp hc with hc0 | hcr
      · obtain ⟨e, he⟩ := cellStep_error_of_bad dx dy x y c0 (hc0 ▸ hbad)
        exact ⟨e, by simp [rowLoop, he]⟩
      · cases hstep : cellStep dx dy x y c0 with
        | error e => exact ⟨e, by simp [rowLoop, hstep]⟩
        | ok o =>
            obtain ⟨e, he⟩ := ih (x + 1) c hcr hbad
            cases o with
            | none => exact ⟨e, by simp [rowLoop, hstep, he]⟩
            | some b => exact ⟨e, by simp [rowLoop, hstep, he]⟩

theorem imgLoop_ok_of_good (dx dy : Int) (w : Nat) :
    ∀ (img : List (List String)) (y : Nat),
      (∀ row ∈ img, row.length = w) →
      (∀ row ∈ img, ∀ c ∈ row, goodCell c) →
      imgLoop dx dy w y img = .ok (imgCmds dx dy y img) := by
  intro img
  induction img with
  | nil => intro y hw hg; rfl
  | cons row rest ih =>
      intro y hw hg
      have hr := rowLoop_ok_of_good dx dy y row 0 (hg row (by simp))
      rw [hw row (by simp)] at hr
      simp only [imgLoop, hr, imgCmds]
      rw [ih (y + 1) (fun r h2 => hw r (by simp [h2]))
        (fun r h2 => hg r (by simp [h2]))]

theorem imgLoop_error_of_bad (dx dy : Int) (w : Nat) :
    ∀ (img : List (List String)) (y : Nat),
      (∀ row ∈ img, row.length = w) →
      (∃ row ∈ img, ∃ c ∈ row, ¬goodCell c) →
      ∃ e, imgLoop dx dy w y img = .error e := by
  intro img
  induction img with
  | nil => intro y hw hbad; simp at hbad
  | cons row rest ih =>
      intro y hw hbad
      rcases hbad with ⟨r, hr, c, hc, hbadc⟩
      rcases List.mem_cons.mp hr with hr0 | hrr
      · obtain ⟨e, he⟩ := rowLoop_error_of_bad dx dy y row 0 c (hr0 ▸ hc) hbadc
        rw [hw row (by simp)] at he
        exact ⟨e, by simp [imgLoop, he]⟩
      · cases hrow : rowLoop dx dy y 0 row w with
        | error e => exact ⟨e, by simp [imgLoop, hrow]⟩
        | ok cs =>
            obtain ⟨e, he⟩ := ih (y + 1) (fun r2 h2 => hw r2 (by simp [h2]))
              ⟨r, hrr, c, hc, hbadc⟩
            exact ⟨e, by simp [imgLoop, hrow, he]⟩

theorem rowCmdsFrom_length (dx dy : Int) (y : Nat) :
    ∀ (row : List String) (x : Nat),
      (rowCmdsFrom dx dy y x row).length = row.length - row.count TRANSPARENT := by
  intro row
  induction row with
  | nil => intro x; rfl
  | cons c rest ih =>
      intro x
      have hle := List.count_le_length TRANSPARENT rest
      by_cases hc : c = TRANSPARENT
      · rw [rowCmdsFrom, if_pos hc, ih (x + 1), hc, List.length_cons,
          List.count_cons_self]
        omega
      · rw [rowCmdsFrom, if_neg hc, List.length_cons, List.length_cons,
          List.count_cons_of_ne (fun he => hc he.symm), ih (x + 1)]
        omega

theorem imgCmds_length (dx dy : Int) (w : Nat) :
    ∀ (img : List (List String)) (y : Nat), (∀ row ∈ img, row.length = w) →
      (imgCmds dx dy y img).length = w * img.length - transparentCount img
      ∧ transparentCount img ≤ w * img.length := by
  intro img
  induction img with
  | nil => intro y hw; simp [imgCmds, transparentCount]
  | cons row rest ih =>
      intro y hw
      obtain ⟨ih1, ih2⟩ := ih (y + 1) (fun r h2 => hw r (by simp [h2]))
      have hrow := rowCmdsFrom_length dx dy y row 0
      have hwr : row.length = w := hw row (by simp)
      have hcle := List.count_le_length TRANSPARENT row
      have htc : transparentCount (row :: rest)
          = row.count TRANSPARENT + transparentCount rest := by
        simp [transparentCount]
      rw [hwr] at hcle
      constructor
      · rw [imgCmds, List.length_append, hrow, hwr, ih1, htc,
          List.length_cons, Nat.mul_succ]
        omega
      · rw [htc, List.length_cons, Nat.mul_succ]
        omega

theorem count_partition (t o : String) (hne : t ≠ o) :
    ∀ row : List String, (∀ c ∈ row, c = t ∨ c = o) →
      row.count t + row.count o = row.length := by
  intro row
  induction row with
  | nil => intro h; rfl
  | cons c rest ih =>
      intro h
      have hrest := ih (fun c2 h2 => h c2 (by simp [h2]))
      rcases h c (by simp) with hc | hc
      · subst hc
        rw [List.count_cons_self, List.count_cons_of_ne (fun he => hne he.symm),
          List.length_cons]
        omega
      · subst hc
        rw [List.count_cons_self, List.count_cons_of_ne hne, List.length_cons]
        omega

theorem rowCmdsFrom_all_transparent (dx dy : Int) (y : Nat) :
    ∀ (row : List String) (x : Nat), (∀ c ∈ row, c = TRANSPARENT) →
      rowCmdsFrom dx dy y x row = [] := by
  intro row
  induction row with
  | nil => intro x h; rfl
  | cons c rest ih =>
      intro x h
      rw [rowCmdsFrom, if_pos (h c (by simp))]
      exact ih (x + 1) (fun c2 h2 => h c2 (by simp [h2]))

theorem imgCmds_all_transparent (dx dy : Int) :
    ∀ (img : List (List String)) (y : Nat),
      (∀ row ∈ img, ∀ c ∈ row, c = TRANSPARENT) →
      imgCmds dx dy y img = [] := by
  intro img
  induction img with
  | nil => intro y h; rfl
  | cons row rest ih =>
      intro y h
      rw [imgCmds, rowCmdsFrom_all_transparent dx dy y row 0 (h row (by simp)),
        ih (y + 1) (fun r h2 => h r (by simp [h2]))]
      rfl

open List

theorem setCmdLoop_fst (shuf : Nat → List Bytes → List Bytes)
    (hshuf : ∀ i l, shuf i l ~ l) :
    ∀ (keys : List SelKey) (i : Nat) (cur : List Bytes)
      (d : List (DKey × Bytes)),
      (setCmdLoop shuf keys i cur d).1 ~ cur := by
  intro keys
  induction keys with
  | nil => intro i cur d; simp [setCmdLoop]
  | cons k rest ih =>
      intro i cur d
      exact (ih (i + 1) (shuf i cur) _).trans (hshuf i cur)

theorem setCmdLoop_get_or (shuf : Nat → List Bytes → List Bytes)
    (hshuf : ∀ i l, shuf i l ~ l) :
    ∀ (keys : List SelKey) (i : Nat) (cur : List Bytes)
      (d : List (DKey × Bytes)) (key : DKey),
      dictGet (setCmdLoop shuf keys i cur d).2 key = dictGet d key
      ∨ ∃ p, p ~ cur ∧ dictGet (setCmdLoop shuf keys i cur d).2 key
          = some p.flatten := by
  intro keys
  induction keys with
  | nil => intro i cur d key; exact Or.inl rfl
  | cons k rest ih =>
      intro i cur d key
      rcases ih (i + 1) (shuf i cur) (dictSet d (DKey.skey k) (shuf i cur).flatten)
          key with h | ⟨p, hp, hget⟩
      · by_cases hk : DKey.skey k = key
        · refine Or.inr ⟨shuf i cur, hshuf i cur, ?_⟩
          rw [setCmdLoop, h, ← hk]
          exact dictGet_dictSet_self d (DKey.skey k) _
        · refine Or.inl ?_
          rw [setCmdLoop, h, dictGet_dictSet_ne d (DKey.skey k) key _ hk]
      · exact Or.inr ⟨p, hp.trans (hshuf i cur), by rw [setCmdLoop]; exact hget⟩

theorem setCmdLoop_mem (shuf : Nat → List Bytes → List Bytes)
    (hshuf : ∀ i l, shuf i l ~ l) :
    ∀ (keys : List SelKey) (i : Nat) (cur : List Bytes)
      (d : List (DKey × Bytes)) (k : SelKey), k ∈ keys →
      ∃ p, p ~ cur ∧ dictGet (setCmdLoop shuf keys i cur d).2 (DKey.skey k)
        = some p.flatten := by
  intro keys
  induction keys with
  | nil => intro i cur d k hk; exact absurd hk (by simp)
  | cons k0 rest ih =>
      intro i cur d k hk
      rcases List.mem_cons.mp hk with hk0 | hkr
      · rcases setCmdLoop_get_or shuf hshuf rest (i + 1) (shuf i cur)
            (dictSet d (DKey.skey k0) (shuf i cur).flatten) (DKey.skey k)
          with h | ⟨p, hp, hget⟩
        · refine ⟨shuf i cur, hshuf i cur, ?_⟩
          rw [setCmdLoop, h, hk0, dictGet_dictSet_self]
        · exact ⟨p, hp.trans (hshuf i cur), by rw [setCmdLoop]; exact hget⟩
      · obtain ⟨p, hp, hget⟩ := ih (i + 1) (shuf i cur)
          (dictSet d (DKey.skey k0) (shuf i cur).flatten) k hkr
        exact ⟨p, hp.trans (hshuf i cur), by rw [setCmdLoop]; exact hget⟩

/-- C7: set_cmd_list installs, for every registered connection, a blob that
is the concatenation of some permutation of the full command sequence (each
connection drawing a fresh in-place reshuffle of the shared list), so a
full drain of one connection's blob yields the original command multiset
exactly once; px_per_str records the command count. -/
theorem c7_set_cmd_list (shuf : Nat → List Bytes → List Bytes)
    (hshuf : ∀ i l, shuf i l ~ l) (s : Sender) (cmds : List Bytes) :
    (∀ k ∈ s.selMap, ∃ p, p ~ cmds ∧
        dictGet (set_cmd_list shuf s cmds).cmd_str (DKey.skey k)
          = some p.flatten)
    ∧ (set_cmd_list shuf s cmds).px_per_str = cmds.length := by
  constructor
  · intro k hk
    exact setCmdLoop_mem shuf hshuf s.selMap 0 cmds s.cmd_str k hk
  · exact (setCmdLoop_fst shuf hshuf s.selMap 0 cmds s.cmd_str).length_eq

theorem c7_set_cmd_list_witness :
    ∃ p, p ~ [blobOne, ['a', 'b']] ∧
      dictGet (set_cmd_list (fun _ l => l.reverse) senderTwo
          [blobOne, ['a', 'b']]).cmd_str (DKey.skey keyA) = some p.flatten :=
  (c7_set_cmd_list (fun _ l => l.reverse) (fun _ l => l.reverse_perm)
    senderTwo [blobOne, ['a', 'b']]).1 keyA (by decide)

/-- C4 counterexample: the colour token 0x1a2b has length 6 and contains
characters that are not hexadecimal digits, yet get_cmds raises nothing and
emits a command for the cell, because int(rgb, 16) accepts a 0x prefix. -/
theorem c4_counterexample :
    get_cmds 0 0 [["0x1a2b"]] = .ok [mkCmd 0 0 "0x1a2b"]
    ∧ ("0x1a2b" : String).length = 6
    ∧ ("0x1a2b" : String).toList.all isHexDigit = false := ⟨rfl, rfl, rfl⟩

/-- C4 amended: get_cmds raises an error (emitting nothing: the whole build
aborts fail-fast) if and only if some cell is neither the transparent
sentinel nor accepted by the validation of the source, namely succeeding
int(rgb, 16) parse and length 6 or 8.  The int parse accepts strictly more
than plain hex-digit strings (optional sign, 0x or 0X prefix, surrounding
whitespace, underscores between digits), so a token may contain non-hex
characters and still be emitted. -/
theorem c4_amended (dx dy : Int) (img : List (List String)) (w : Nat)
    (hne : img ≠ []) (hw : ∀ row ∈ img, row.length = w) :
    (∃ e, get_cmds dx dy img = .error e) ↔
      ∃ row ∈ img, ∃ c ∈ row, c ≠ TRANSPARENT
        ∧ (pyInt16Ok c = false ∨ ¬(c.length = 6 ∨ c.length = 8)) := by
  cases img with
  | nil => exact absurd rfl hne
  | cons r0 rest =>
      have hw0 : r0.length = w := hw r0 (by simp)
      constructor
      · intro he
        by_contra hbad
        push_neg at hbad
        have hgood : ∀ row ∈ r0 :: rest, ∀ c ∈ row, goodCell c := by
          intro row hrow c hc
          by_cases ht : c = TRANSPARENT
          · exact Or.inl ht
          · obtain ⟨h1, h2⟩ := hbad row hrow c hc ht
            exact Or.inr ⟨by
              cases hv : pyInt16Ok c
              · exact absurd hv h1
              · rfl, h2⟩
        obtain ⟨e, hee⟩ := he
        rw [get_cmds, hw0,
          imgLoop_ok_of_good dx dy w (r0 :: rest) 0 hw hgood] at hee
        exact Except.noConfusion hee
      · intro hbad
        obtain ⟨row, hrow, c, hc, ht, hv⟩ := hbad
        have hbadc : ¬goodCell c := by
          intro hg
          rcases hg with hg | ⟨hg1, hg2⟩
          · exact ht hg
          · rcases hv with hv | hv
            · rw [hg1] at hv; exact Bool.noConfusion hv
            · exact hv hg2
        obtain ⟨e, hee⟩ := imgLoop_error_of_bad dx dy w (r0 :: rest) 0 hw
          ⟨row, hrow, c, hc, hbadc⟩
        exact ⟨e, by rw [get_cmds, hw0]; exact hee⟩

theorem c4_amended_witness :
    (∃ e, get_cmds 0 0 [["zz0000"]] = .error e) ↔
      ∃ row ∈ [["zz0000"]], ∃ c ∈ row, c ≠ TRANSPARENT
        ∧ (pyInt16Ok c = false ∨ ¬(c.length = 6 ∨ c.length = 8)) :=
  c4_amended 0 0 [["zz0000"]] 1 (by decide) (by decide)

/-- C5: for a rectangular image whose cells are transparent or well-formed
6- or 8-hex colours, get_cmds succeeds and the command count is
w * h - k where k is the number of transparent cells, for every offset; an
all-transparent image yields the empty command sequence, and feeding that
to set_cmd_list makes every installed blob empty with px_per_str = 0. -/
theorem c5_command_count (dx dy : Int) (img : List (List String)) (w : Nat)
    (hne : img ≠ []) (hw : ∀ row ∈ img, row.length = w)
    (hval : ∀ row ∈ img, ∀ c ∈ row, c = TRANSPARENT ∨ validColor c) :
    (∃ l, get_cmds dx dy img = .ok l
        ∧ l.length = w * img.length - transparentCount img)
    ∧ ((∀ row ∈ img, ∀ c ∈ row, c = TRANSPARENT) →
        get_cmds dx dy img = .ok []
        ∧ ∀ (shuf : Nat → List Bytes → List Bytes) (s : Sender),
            (∀ i l, shuf i l ~ l) →
            (set_cmd_list shuf s []).px_per_str = 0
            ∧ ∀ k ∈ s.selMap,
                dictGet (set_cmd_list shuf s []).cmd_str (DKey.skey k)
                  = some []) := by
  have hgood : ∀ row ∈ img, ∀ c ∈ row, goodCell c := by
    intro row hrow c hc
    rcases hval row hrow c hc with h | h
    · exact Or.inl h
    · exact Or.inr ⟨pyInt16Ok_of_validColor c h, h.1⟩
  cases img with
  | nil => exact absurd rfl hne
  | cons r0 rest =>
      have hw0 : r0.length = w := hw r0 (by simp)
      have hok : get_cmds dx dy (r0 :: rest)
          = .ok (imgCmds dx dy 0 (r0 :: rest)) := by
        rw [get_cmds, hw0]
        exact imgLoop_ok_of_good dx dy w (r0 :: rest) 0 hw hgood
      constructor
      · exact ⟨imgCmds dx dy 0 (r0 :: rest), hok,
          (imgCmds_length dx dy w (r0 :: rest) 0 hw).1⟩
      · intro halltr
        constructor
        · rw [hok, imgCmds_all_transparent dx dy (r0 :: rest) 0 halltr]
        · intro shuf s hshuf
          constructor
          · exact ((c7_set_cmd_list shuf hshuf s []).2)
          · intro k hk
            obtain ⟨p, hp, hget⟩ := (c7_set_cmd_list shuf hshuf s []).1 k hk
            rw [hget, List.Perm.eq_nil hp]
            rfl

theorem c5_command_count_witness :
    (∃ l, get_cmds 10 20 [["ff0000", "000000"]] = .ok l
        ∧ l.length = 2 * 1 - transparentCount [["ff0000", "000000"]])
    ∧ ((∀ row ∈ [["ff0000", "000000"]], ∀ c ∈ row, c = TRANSPARENT) →
        get_cmds 10 20 [["ff0000", "000000"]] = .ok []
        ∧ ∀ (shuf : Nat → List Bytes → List Bytes) (s : Sender),
            (∀ i l, shuf i l ~ l) →
            (set_cmd_list shuf s []).px_per_str = 0
            ∧ ∀ k ∈ s.selMap,
                dictGet (set_cmd_list shuf s []).cmd_str (DKey.skey k)
                  = some []) :=
  c5_command_count 10 20 [["ff0000", "000000"]] 2 (by decide) (by decide)
    (by decide)

/-- C9: the 8-character all-black value 00000000 is not the transparent
sentinel: it passes validation and a command is emitted for every cell
holding it, while every 6-character 000000 cell is skipped.  For an image
whose cells are all one of the two, the command count equals the number of
00000000 cells; in particular a single-cell image with 00000000 yields its
command and a single-cell image with 000000 yields nothing. -/
theorem c9_black_rgba (dx dy : Int) (img : List (List String)) (w : Nat)
    (hne : img ≠ []) (hw : ∀ row ∈ img, row.length = w)
    (hcells : ∀ row ∈ img, ∀ c ∈ row, c = TRANSPARENT ∨ c = BLACK_RGBA) :
    (∃ l, get_cmds dx dy img = .ok l ∧ l.length = blackRGBACount img)
    ∧ (∀ a b : Int, get_cmds a b [[BLACK_RGBA]] = .ok [mkCmd a b BLACK_RGBA]
        ∧ get_cmds a b [[TRANSPARENT]] = .ok []) := by
  constructor
  · have hval : ∀ row ∈ img, ∀ c ∈ row, c = TRANSPARENT ∨ validColor c := by
      intro row hrow c hc
      rcases hcells row hrow c hc with h | h
      · exact Or.inl h
      · exact Or.inr (h ▸ (by decide : validColor BLACK_RGBA))
    obtain ⟨⟨l, hok, hlen⟩, -⟩ :=
      c5_command_count dx dy img w hne hw hval
    refine ⟨l, hok, hlen.trans ?_⟩
    have hpart : ∀ row ∈ img, row.count TRANSPARENT + row.count BLACK_RGBA
        = row.length := by
      intro row hrow
      exact count_partition TRANSPARENT BLACK_RGBA (by decide) row
        (hcells row hrow)
    clear hok hlen hval hcells hne
    induction img with
    | nil => rfl
    | cons row rest ih =>
        have hw0 : row.length = w := hw row (by simp)
        have hp0 := hpart row (by simp)
        have ihr := ih (fun r h2 => hw r (by simp [h2]))
          (fun r h2 => hpart r (by simp [h2]))
        have htc : transparentCount (row :: rest)
            = row.count TRANSPARENT + transparentCount rest := by
          simp [transparentCount]
        have hbc : blackRGBACount (row :: rest)
            = row.count BLACK_RGBA + blackRGBACount rest := by
          simp [blackRGBACount]
        have hrest := (imgCmds_length dx dy w rest 0
          (fun r h2 => hw r (by simp [h2]))).2
        rw [htc, hbc, List.length_cons, Nat.mul_succ]
        omega
  · intro a b
    constructor
    · have hok := imgLoop_ok_of_good a b 1 [[BLACK_RGBA]] 0 (by decide)
        (by decide)
      show imgLoop a b 1 0 [[BLACK_RGBA]] = _
      rw [hok]
      rw [imgCmds, rowCmdsFrom,
        if_neg (show ¬(BLACK_RGBA = TRANSPARENT) by decide), rowCmdsFrom,
        imgCmds]
      simp
    · rfl

theorem c9_black_rgba_witness :
    (∃ l, get_cmds 3 4 [["000000", "00000000"]] = .ok l
        ∧ l.length = blackRGBACount [["000000", "00000000"]])
    ∧ (∀ a b : Int,
        get_cmds a b [[BLACK_RGBA]] = .ok [mkCmd a b BLACK_RGBA]
        ∧ get_cmds a b [[TRANSPARENT]] = .ok []) :=
  c9_black_rgba 3 4 [["000000", "00000000"]] 2 (by decide) (by decide)
    (by decide)

theorem cycles_zero (blob : Bytes) : cycles 0 blob = [] := rfl

theorem cycles_succ (m : Nat) (blob : Bytes) :
    cycles (m + 1) blob = blob ++ cycles m blob := by
  simp [cycles, List.replicate_succ]

theorem send_accepted_isOk (s : Sender) (sock : Sock) (k : Nat)
    (hcmd : s.cmd_str ≠ []) :
    ∃ t, send (.accepted k) s sock = .ok t := by
  simp only [send]
  rw [if_neg (by simpa [List.length_eq_zero] using hcmd)]
  exact ⟨_, rfl⟩

theorem send_accepted_cases (s : Sender) (sock : Sock) (k : Nat) (t : Sender)
    (h : send (.accepted k) s sock = .ok t) :
    t.cmd_str = s.cmd_str ∧ t.px_cnt = s.px_cnt
      + ((min k (residual s sock).length : Nat) : Rat)
        / (s.cmd_str.length : Rat) * (s.px_per_str : Rat)
    ∧ (if (residual s sock).length = 0
       then dictGet t.buf sock
          = some ((dictGet s.cmd_str (DKey.sock sock)).getD [])
       else dictGet t.buf sock
          = some ((residual s sock).drop (min k (residual s sock).length))) := by
  simp only [send] at h
  split at h
  · exact Except.noConfusion h
  · cases h
    refine ⟨rfl, rfl, ?_⟩
    by_cases hz : (residual s sock).length = 0
    · rw [if_pos hz]
      have hz2 : ((dictGet s.buf sock).getD []).length = 0 := hz
      show dictGet (if ((dictGet s.buf sock).getD []).length = 0
          then _ else _) sock = _
      rw [if_pos hz2]
      exact dictGet_dictSet_self _ sock _
    · rw [if_neg hz]
      have hz2 : ¬((dictGet s.buf sock).getD []).length = 0 := hz
      show dictGet (if ((dictGet s.buf sock).getD []).length = 0
          then _ else _) sock = _
      rw [if_neg hz2]
      exact dictGet_dictSet_self _ sock _

theorem sendTrace_invariant (blob : Bytes) (sock : Sock) :
    ∀ (ks : List Nat) (s t : Sender) (out : Bytes),
      dictGet s.cmd_str (DKey.sock sock) = some blob →
      residual s sock <:+ blob →
      sendTrace ks s sock = .ok (t, out) →
      ∃ m, residual s sock ++ cycles m blob = out ++ residual t sock
        ∧ residual t sock <:+ blob
        ∧ dictGet t.cmd_str (DKey.sock sock) = some blob := by
  intro ks
  induction ks with
  | nil =>
      intro s t out hcmd hsuf h
      simp only [sendTrace] at h
      cases h
      exact ⟨0, by simp [cycles_zero], hsuf, hcmd⟩
  | cons k rest ih =>
      intro s t out hcmd hsuf h
      have hcne : s.cmd_str ≠ [] := by
        intro hc
        rw [hc] at hcmd
        exact Option.noConfusion hcmd
      simp only [sendTrace] at h
      cases hsend : send (.accepted k) s sock with
      | error e => simp only [hsend] at h; exact Except.noConfusion h
      | ok s2 =>
          simp only [hsend] at h
          cases htr : sendTrace rest s2 sock with
          | error e => simp only [htr] at h; exact Except.noConfusion h
          | ok pr =>
              simp only [htr] at h
              obtain ⟨t2, out2⟩ := pr
              simp only [Except.ok.injEq, Prod.mk.injEq] at h
              obtain ⟨ht2, hout⟩ := h
              obtain ⟨hc2, -, hbuf2⟩ := send_accepted_cases s sock k s2 hsend
              have hcmd2 : dictGet s2.cmd_str (DKey.sock sock) = some blob := by
                rw [hc2]; exact hcmd
              by_cases hz : (residual s sock).length = 0
              · have hres : residual s sock = [] := List.length_eq_zero.mp hz
                rw [if_pos hz] at hbuf2
                have hres2 : residual s2 sock = blob := by
                  rw [residual, hbuf2, hcmd]
                  rfl
                obtain ⟨m, hm, hsuf2, hcmd3⟩ := ih s2 t2 out2 hcmd2
                  (by rw [hres2]) htr
                rw [hres2] at hm
                refine ⟨m + 1, ?_, ht2 ▸ hsuf2, ht2 ▸ hcmd3⟩
                have hchunk : List.take
                    (k ⊓ List.length ((dictGet s.buf sock).getD []))
                    ((dictGet s.buf sock).getD []) = ([] : Bytes) := by
                  have hd : (dictGet s.buf sock).getD [] = ([] : Bytes) := hres
                  rw [hd]
                  simp
                rw [← ht2, ← hout, hchunk, hres, cycles_succ,
                  List.nil_append, List.nil_append, hm]
              · rw [if_neg hz] at hbuf2
                have hres2 : residual s2 sock
                    = (residual s sock).drop (min k (residual s sock).length) := by
                  rw [residual, hbuf2]
                  rfl
                have hsuf2 : residual s2 sock <:+ blob := by
                  rw [hres2]
                  exact (List.drop_suffix _ _).trans hsuf
                obtain ⟨m, hm, hsuf3, hcmd3⟩ := ih s2 t2 out2 hcmd2 hsuf2 htr
                rw [hres2] at hm
                refine ⟨m, ?_, ht2 ▸ hsuf3, ht2 ▸ hcmd3⟩
                have hchunk : List.take
                    (k ⊓ List.length ((dictGet s.buf sock).getD []))
                    ((dictGet s.buf sock).getD [])
                    = (residual s sock).take
                        (min k (residual s sock).length) := rfl
                rw [← ht2, ← hout, hchunk, List.append_assoc, ← hm,
                  ← List.append_assoc, List.take_append_drop]

/-- C6: partial-write resilience.  First: if the residual buffer of a
connection is a non-empty byte string d and the kernel accepts only
k < len(d) bytes, the call succeeds and the residual buffer afterwards is
exactly d without its first k bytes.  Second: over any run of send calls on
one connection that starts with an empty residual buffer and ends with an
empty residual buffer, the bytes put on the wire are exactly a whole number
of copies of the connection's blob — no byte is duplicated or dropped over
full wrap-around cycles. -/
theorem c6_partial_write :
    (∀ (s : Sender) (sock : Sock) (d : Bytes) (k : Nat),
        dictGet s.buf sock = some d → d ≠ [] → k < d.length →
        s.cmd_str ≠ [] →
        ∃ t, send (.accepted k) s sock = .ok t
          ∧ dictGet t.buf sock = some (d.drop k))
    ∧ (∀ (ks : List Nat) (blob : Bytes) (s t : Sender) (out : Bytes)
        (sock : Sock),
        dictGet s.cmd_str (DKey.sock sock) = some blob →
        residual s sock = [] →
        sendTrace ks s sock = .ok (t, out) →
        residual t sock = [] →
        ∃ m, out = cycles m blob) := by
  constructor
  · intro s sock d k hbuf hdne hk hcmd
    obtain ⟨t, ht⟩ := send_accepted_isOk s sock k hcmd
    obtain ⟨-, -, hcase⟩ := send_accepted_cases s sock k t ht
    have hres : residual s sock = d := by rw [residual, hbuf]; rfl
    rw [hres] at hcase
    have hdz : ¬d.length = 0 := by
      intro hz
      exact hdne (List.length_eq_zero.mp hz)
    rw [if_neg hdz, Nat.min_eq_left (Nat.le_of_lt hk)] at hcase
    exact ⟨t, ht, hcase⟩
  · intro ks blob s t out sock hcmd hres htr hrest
    obtain ⟨m, hm, -, -⟩ := sendTrace_invariant blob sock ks s t out hcmd
      (by rw [hres]; exact List.nil_suffix) htr
    rw [hres, hrest] at hm
    simp only [List.nil_append, List.append_nil] at hm
    exact ⟨m, hm.symm⟩

theorem c6_partial_write_witness :
    (∃ t, send (.accepted 1) senderPartial 7 = .ok t
        ∧ dictGet t.buf 7 = some (['a', 'b', 'c'].drop 1))
    ∧ ∃ m, (['a', 'b', 'a', 'b'] : Bytes) = cycles m ['a', 'b'] := by
  constructor
  · exact c6_partial_write.1 senderPartial 7 ['a', 'b', 'c'] 1 rfl
      (by decide) (by decide) (by decide)
  · exact c6_partial_write.2 [3, 1, 1, 5, 2] ['a', 'b'] senderRing
      { senderRing with buf := [(7, [])], px_cnt := 4 } ['a', 'b', 'a', 'b'] 7
      rfl rfl (by with_unfolding_all rfl) (by with_unfolding_all rfl)

theorem connectLoop_eq (outcome : Nat → Option Sock) :
    ∀ (n i : Nat) (acc : List SelKey),
      connectLoop outcome i n acc = acc ++ openedFrom outcome i n := by
  intro n
  induction n with
  | zero => intro i acc; simp [connectLoop, openedFrom]
  | succ n ih =>
      intro i acc
      cases h : outcome i with
      | none => simp [connectLoop, openedFrom, h]
      | some sk => simp [connectLoop, openedFrom, h, ih]

theorem openedFrom_length_le (outcome : Nat → Option Sock) :
    ∀ (n i : Nat), (openedFrom outcome i n).length ≤ n := by
  intro n
  induction n with
  | zero => intro i; simp [openedFrom]
  | succ n ih =>
      intro i
      cases h : outcome i with
      | none => simp [openedFrom, h]
      | some sk => simpa [openedFrom, h] using ih (i + 1)

theorem openedFrom_nonblocking (outcome : Nat → Option Sock) :
    ∀ (n i : Nat) (k : SelKey), k ∈ openedFrom outcome i n →
      k.nonblocking = true := by
  intro n
  induction n with
  | zero => intro i k hk; simp [openedFrom] at hk
  | succ n ih =>
      intro i k hk
      cases h : outcome i with
      | none => rw [openedFrom, h] at hk; simp at hk
      | some sk =>
          rw [openedFrom, h] at hk
          rcases List.mem_cons.mp hk with h2 | h2
          · rw [h2]
          · exact ih (i + 1) k h2

theorem openedFrom_stop (outcome : Nat → Option Sock) :
    ∀ (n i j : Nat), j < n → outcome (i + j) = none →
      (openedFrom outcome i n).length ≤ j := by
  intro n
  induction n with
  | zero => intro i j hj; omega
  | succ n ih =>
      intro i j hj hout
      cases h : outcome i with
      | none => simp [openedFrom, h]
      | some sk =>
          cases j with
          | zero =>
              rw [Nat.add_zero] at hout
              rw [h] at hout
              exact Option.noConfusion hout
          | succ j =>
              rw [openedFrom, h]
              have := ih (i + 1) j (by omega)
                (by rw [show i + 1 + j = i + (j + 1) by omega]; exact hout)
              simpa using this

/-- C8: connect opens at most max_socks connections, all set non-blocking,
stopping at the first refusal without raising for it, and raises
ConnectionRefusedError('Could not connect with any socket.') if and only if
no connection at all was opened (starting from an empty pool). -/
theorem c8_connect (outcome : Nat → Option Sock) (s : Sender)
    (h0 : s.selMap = []) :
    ((∃ t, connect outcome s = .error (.connectionRefused, t))
        ↔ openedFrom outcome 0 s.max_socks = [])
    ∧ (∀ t, connect outcome s = .ok t →
        t.selMap = openedFrom outcome 0 s.max_socks
        ∧ t.selMap.length ≤ s.max_socks
        ∧ 1 ≤ t.selMap.length
        ∧ ∀ k ∈ t.selMap, k.nonblocking = true)
    ∧ (∀ j, j < s.max_socks → outcome j = none →
        (openedFrom outcome 0 s.max_socks).length ≤ j) := by
  have hm : connectLoop outcome 0 s.max_socks s.selMap
      = openedFrom outcome 0 s.max_socks := by
    rw [connectLoop_eq, h0, List.nil_append]
  refine ⟨?_, ?_, ?_⟩
  · constructor
    · rintro ⟨t, ht⟩
      by_contra hne
      have hlen : ¬(openedFrom outcome 0 s.max_socks).length < 1 := by
        have := List.length_pos.mpr hne
        omega
      simp only [connect, hm, if_neg hlen] at ht
      exact Except.noConfusion ht
    · intro hnil
      refine ⟨{ s with selMap := openedFrom outcome 0 s.max_socks }, ?_⟩
      simp only [connect, hm, hnil]
      rfl
  · intro t ht
    have hlen : ¬(openedFrom outcome 0 s.max_socks).length < 1 := by
      by_contra hlt
      simp only [connect, hm, if_pos hlt] at ht
      exact Except.noConfusion ht
    simp only [connect, hm, if_neg hlen] at ht
    cases ht
    refine ⟨rfl, openedFrom_length_le outcome s.max_socks 0, by
      simp only [not_lt] at hlen
      simpa using hlen,
      fun k hk => openedFrom_nonblocking outcome s.max_socks 0 k hk⟩
  · intro j hj hout
    exact openedFrom_stop outcome s.max_socks 0 j hj
      (by rw [Nat.zero_add]; exact hout)

theorem c8_connect_witness :
    ((∃ t, connect (fun i => if i < 2 then some (100 + i) else none)
          (initSender 5) = .error (.connectionRefused, t))
      ↔ openedFrom (fun i => if i < 2 then some (100 + i) else none) 0
          (initSender 5).max_socks = [])
    ∧ (∀ t, connect (fun i => if i < 2 then some (100 + i) else none)
          (initSender 5) = .ok t →
        t.selMap = openedFrom (fun i => if i < 2 then some (100 + i) else none)
            0 (initSender 5).max_socks
        ∧ t.selMap.length ≤ (initSender 5).max_socks
        ∧ 1 ≤ t.selMap.length
        ∧ ∀ k ∈ t.selMap, k.nonblocking = true)
    ∧ (∀ j, j < (initSender 5).max_socks →
        (fun i => if i < 2 then some (100 + i) else none) j = none →
        (openedFrom (fun i => if i < 2 then some (100 + i) else none) 0
          (initSender 5).max_socks).length ≤ j) :=
  c8_connect (fun i => if i < 2 then some (100 + i) else none)
    (initSender 5) rfl

theorem send_px_shift (k : Nat) (sock : Sock) (s : Sender) (p : Rat)
    (t : Sender) (h : send (.accepted k) s sock = .ok t) :
    send (.accepted k) { s with px_cnt := p } sock
      = .ok { t with px_cnt := p + (t.px_cnt - s.px_cnt) } := by
  simp only [send] at h ⊢
  split at h
  · exact Except.noConfusion h
  · next hcz =>
      cases h
      rw [if_neg (show ¬({ s with px_cnt := p } : Sender).cmd_str.length = 0
        from hcz)]
      simp only [Except.ok.injEq]
      congr 1
      simp only [add_sub_cancel_left]

theorem send_px_mono (k : Nat) (sock : Sock) (s t : Sender)
    (h : send (.accepted k) s sock = .ok t) : s.px_cnt ≤ t.px_cnt := by
  rw [(send_accepted_cases s sock k t h).2.1]
  have hnn : (0 : Rat) ≤ ((min k (residual s sock).length : Nat) : Rat)
      / (s.cmd_str.length : Rat) * (s.px_per_str : Rat) :=
    mul_nonneg (div_nonneg (Nat.cast_nonneg _) (Nat.cast_nonneg _))
      (Nat.cast_nonneg _)
  linarith

theorem runSendsOnly_shift :
    ∀ (evs : List Ev) (s : Sender) (p : Rat) (t : Sender),
      runSendsOnly evs s = .ok t →
      runSendsOnly evs { s with px_cnt := p }
        = .ok { t with px_cnt := p + (t.px_cnt - s.px_cnt) } := by
  intro evs
  induction evs with
  | nil =>
      intro s p t h
      simp only [runSendsOnly] at h ⊢
      cases h
      simp only [Except.ok.injEq]
      congr 1
      simp
  | cons ev rest ih =>
      intro s p t h
      cases ev with
      | read =>
          simp only [runSendsOnly] at h ⊢
          exact ih s p t h
      | send sock k =>
          simp only [runSendsOnly] at h ⊢
          cases hs : send (.accepted k) s sock with
          | error e => simp only [hs] at h; exact Except.noConfusion h
          | ok s2 =>
              simp only [hs] at h
              rw [send_px_shift k sock s p s2 hs]
              show runSendsOnly rest
                { s2 with px_cnt := p + (s2.px_cnt - s.px_cnt) } = _
              rw [ih s2 (p + (s2.px_cnt - s.px_cnt)) t h]
              simp only [Except.ok.injEq]
              congr 1
              ring

theorem truncQ_le (q : Rat) (h : 0 ≤ q) : (truncQ q : Rat) ≤ q := by
  rw [truncQ, if_pos h]
  exact Int.floor_le q

theorem truncQ_gt (q : Rat) (h : 0 ≤ q) : q - 1 < (truncQ q : Rat) := by
  rw [truncQ, if_pos h]
  exact Int.sub_one_lt_floor q

theorem runEvents_le_aux :
    ∀ (evs : List Ev) (s : Sender), s.cmd_str ≠ [] → 0 ≤ s.px_cnt →
      ∀ (tot : Int) (t : Sender), runEvents evs s = .ok (tot, t) →
      ∃ u, runSendsOnly evs s = .ok u
        ∧ (tot : Rat) + t.px_cnt ≤ u.px_cnt ∧ 0 ≤ t.px_cnt := by
  intro evs
  induction evs with
  | nil =>
      intro s hne hpx tot t h
      simp only [runEvents, Except.ok.injEq, Prod.mk.injEq] at h
      obtain ⟨h1, h2⟩ := h
      refine ⟨s, rfl, ?_, ?_⟩
      · rw [← h1, ← h2]
        simp
      · rw [← h2]
        exact hpx
  | cons ev rest ih =>
      intro s hne hpx tot t h
      cases ev with
      | read =>
          simp only [runEvents] at h
          cases hrec : runEvents rest ({ s with px_cnt := 0 } : Sender) with
          | error e =>
              rw [show (get_px_cnt s).2 = ({ s with px_cnt := 0 } : Sender)
                from rfl, hrec] at h
              exact Except.noConfusion h
          | ok pr =>
              rw [show (get_px_cnt s).2 = ({ s with px_cnt := 0 } : Sender)
                from rfl, hrec] at h
              obtain ⟨tot1, t1⟩ := pr
              simp only [Except.ok.injEq, Prod.mk.injEq] at h
              obtain ⟨h1, h2⟩ := h
              have hg : (get_px_cnt s).1 = truncQ s.px_cnt := rfl
              rw [hg] at h1
              obtain ⟨u1, hu1, hle1, hpx1⟩ := ih { s with px_cnt := 0 } hne
                (le_refl 0) tot1 t1 hrec
              refine ⟨{ u1 with px_cnt := s.px_cnt + (u1.px_cnt - 0) }, ?_, ?_, ?_⟩
              · show runSendsOnly rest s = _
                exact runSendsOnly_shift rest { s with px_cnt := 0 } s.px_cnt
                  u1 hu1
              · rw [← h1, ← h2]
                push_cast
                have htr := truncQ_le s.px_cnt hpx
                linarith
              · rw [← h2]
                exact hpx1
      | send sock k =>
          simp only [runEvents] at h
          cases hs : send (.accepted k) s sock with
          | error e => simp only [hs] at h; exact Except.noConfusion h
          | ok s2 =>
              simp only [hs] at h
              have hc2 : s2.cmd_str ≠ [] := by
                rw [(send_accepted_cases s sock k s2 hs).1]
                exact hne
              have hp2 : 0 ≤ s2.px_cnt :=
                hpx.trans (send_px_mono k sock s s2 hs)
              obtain ⟨u, hu, hle, hpxt⟩ := ih s2 hc2 hp2 tot t h
              refine ⟨u, ?_, hle, hpxt⟩
              show (match send (.accepted k) s sock with
                | Except.error e => Except.error e
                | Except.ok s2 => runSendsOnly rest s2) = _
              rw [hs]
              exact hu

/-- C10: get_px_cnt truncates the accumulated pixel estimate toward zero
(int() on a non-negative float is the floor, which is at most the true
value and misses it by less than one) and resets the accumulator to exactly
0, discarding the fractional remainder; consequently, over any sequence of
send and read-and-reset events the sum of the returned values never exceeds
the untruncated accumulated estimate (the px_cnt of the same run with the
resets removed). -/
theorem c10_px_truncation :
    (∀ s : Sender, (get_px_cnt s).2.px_cnt = 0
      ∧ (get_px_cnt s).1 = truncQ s.px_cnt)
    ∧ (∀ q : Rat, 0 ≤ q → (truncQ q : Rat) ≤ q ∧ q - 1 < (truncQ q : Rat))
    ∧ (∀ (evs : List Ev) (s : Sender), s.cmd_str ≠ [] → 0 ≤ s.px_cnt →
        ∀ (tot : Int) (t : Sender), runEvents evs s = .ok (tot, t) →
        ∃ u, runSendsOnly evs s = .ok u ∧ (tot : Rat) ≤ u.px_cnt) := by
  refine ⟨fun s => ⟨rfl, rfl⟩,
    fun q hq => ⟨truncQ_le q hq, truncQ_gt q hq⟩, ?_⟩
  intro evs s hne hpx tot t h
  obtain ⟨u, hu, hle, hpxt⟩ := runEvents_le_aux evs s hne hpx tot t h
  exact ⟨u, hu, by linarith⟩

theorem c10_px_truncation_witness :
    ((truncQ (3 / 2 : Rat) : Rat) ≤ 3 / 2
      ∧ (3 / 2 : Rat) - 1 < (truncQ (3 / 2 : Rat) : Rat))
    ∧ ∃ u, runSendsOnly [Ev.send 7 20, Ev.send 7 20, Ev.read] senderOne
        = .ok u ∧ ((14 : Int) : Rat) ≤ u.px_cnt := by
  constructor
  · exact c10_px_truncation.2.1 (3 / 2) (by norm_num)
  · exact c10_px_truncation.2.2 [Ev.send 7 20, Ev.send 7 20, Ev.read]
      senderOne (by decide) (le_refl 0) 14 { senderOne with buf := [(7, [])] }
      (by with_unfolding_all rfl)

end Hoelli
